import Mathlib

/-!
Shallow embedding of `.github/scripts/forward-port-missing/forward_port_missing.py`
(the forward-port determination engine of the chisel-releases tooling).

Modelling conventions:
* Python `frozenset[str]` slice sets become `Finset String`; set difference,
  intersection and emptiness tests are the corresponding `Finset` operations.
* Python `dict` values become association lists `List (κ × ν)` with the
  dictionary operations `dget` (lookup / `in`) and `dset` (item assignment:
  an existing key keeps its position, a new key is appended, exactly as
  CPython dicts preserve insertion order).
* Python collections that are only iterated (sets of PRs, the comparison
  set) become `List`s; every statement proved below is insensitive to
  iteration order and to duplicates, which is why this is faithful.
* Code that can raise (`ValueError`, failing `assert`) returns
  `Except String`; a `for` loop whose body can raise becomes `foldlE`,
  which stops at the first error exactly like exception propagation.
* The global `_VERSION_TO_CODENAME` table is passed explicitly as `tbl`.
-/

deriving instance DecidableEq for Except

namespace ForwardPortMissing

/-! ### Character-level helpers

The source parses version strings with `str.split` and `int`; we implement
the same operations structurally on `List Char` so that every concrete
instance reduces in the kernel. -/

/-- Value of a decimal digit character, `none` on a non-digit
(where Python `int(...)` would raise). -/
def digitVal (c : Char) : Option Nat :=
  if 48 ≤ c.toNat ∧ c.toNat ≤ 57 then some (c.toNat - 48) else none

/-- Parse a non-empty all-digit string as a natural number, like Python
`int(...)` on the version components the script encounters. -/
def parseNat? (cs : List Char) : Option Nat :=
  match cs with
  | [] => none
  | _ =>
    cs.foldl
      (fun acc c =>
        match acc, digitVal c with
        | some a, some d => some (a * 10 + d)
        | _, _ => none)
      (some 0)

/-- `str.split(".")`: split a character list on `.`, keeping empty pieces. -/
def splitOnDot : List Char → List (List Char)
  | [] => [[]]
  | c :: rest =>
    let r := splitOnDot rest
    if c = '.' then [] :: r
    else
      match r with
      | [] => [[c]]
      | h :: t => (c :: h) :: t

/-! ### UbuntuRelease -/

/-- `UbuntuRelease`: frozen dataclass with fields `version` and `codename`;
equality is field equality. -/
structure UbuntuRelease where
  version : String
  codename : String
deriving DecidableEq

/-- `UbuntuRelease.version_tuple`: `year, month = version.split(".")` then
`(int(year), int(month))`.  The source raises `ValueError` on a malformed
version string; no claim exercises that case, so the malformed branches
return `(0, 0)` here. -/
def UbuntuRelease.version_tuple (r : UbuntuRelease) : Nat × Nat :=
  match (splitOnDot r.version.data).map parseNat? with
  | [some y, some m] => (y, m)
  | _ => (0, 0)

/-- `UbuntuRelease.__lt__`: lexicographic comparison of the version tuples
(Python tuple `<`). -/
def UbuntuRelease.lt (a b : UbuntuRelease) : Bool :=
  decide (a.version_tuple.1 < b.version_tuple.1) ||
    (decide (a.version_tuple.1 = b.version_tuple.1) &&
      decide (a.version_tuple.2 < b.version_tuple.2))

/-- `__gt__` as derived by `functools.total_ordering` from `__lt__` and the
dataclass `__eq__`: `a > b  ⇔  not (a < b or a == b)`. -/
def UbuntuRelease.gt (a b : UbuntuRelease) : Bool :=
  !(a.lt b || decide (a = b))

/-- `__ge__` as derived by `functools.total_ordering`: `a >= b ⇔ not a < b`. -/
def UbuntuRelease.ge (a b : UbuntuRelease) : Bool :=
  !(a.lt b)

/-- `UbuntuRelease.from_branch_name`: assert the `ubuntu-` prefix, take the
part after the first `-`, look the version up in the version→codename table
(the global `_VERSION_TO_CODENAME`, passed here as `tbl`); an unknown
version raises `ValueError`. -/
def UbuntuRelease.from_branch_name (tbl : List (String × String)) (branch : String) :
    Except String UbuntuRelease :=
  if ("ubuntu-".data).isPrefixOf branch.data then
    let version : String := ⟨branch.data.drop 7⟩
    match tbl.lookup version with
    | none => .error ("Unknown Ubuntu version " ++ version ++ " for branch " ++ branch)
    | some codename => .ok ⟨version, codename⟩
  else
    .error "Branch name must start with ubuntu-"

/-! ### Commit and PR -/

/-- `Commit`: frozen dataclass. -/
structure Commit where
  ref : String
  repo_name : String
  repo_owner : String
  repo_url : String
  sha : String
deriving DecidableEq

/-- `PR`: frozen dataclass (ordering is by `number` only; not needed by the
statements below, which are all iteration-order independent). -/
structure PR where
  number : Nat
  title : String
  user : String
  head : Commit
  base : Commit
  label : Bool
  url : String
deriving DecidableEq

/-- `PR.ubuntu_release`: resolve the base branch name. -/
def PR.ubuntu_release (tbl : List (String × String)) (pr : PR) : Except String UbuntuRelease :=
  UbuntuRelease.from_branch_name tbl pr.base.ref

/-! ### Dictionary and loop combinators -/

/-- Python `dict.get` / `in`: first binding of a key in an association list. -/
def dget {κ ν : Type} [DecidableEq κ] : List (κ × ν) → κ → Option ν
  | [], _ => none
  | p :: l, k => if p.1 = k then some p.2 else dget l k

/-- Python `d[k] = v`: replace the first binding in place, else append. -/
def dset {κ ν : Type} [DecidableEq κ] : List (κ × ν) → κ → ν → List (κ × ν)
  | [], k, v => [(k, v)]
  | p :: l, k, v => if p.1 = k then (k, v) :: l else p :: dset l k v

/-- A `for` loop whose body may raise: fold in the `Except` monad, stopping
at the first error. -/
def foldlE {α β : Type} (f : β → α → Except String β) : β → List α → Except String β
  | b, [] => .ok b
  | b, a :: l =>
    match f b a with
    | .error e => .error e
    | .ok b' => foldlE f b' l

/-- The `if k not in d: d[k] = default` idiom, applied for every key of a
list: the loops of the source that make sure a mapping has all expected
keys, adding missing ones bound to an empty collection. -/
def ensureKeys {κ ν : Type} [DecidableEq κ] (ks : List κ) (d : ν) (m : List (κ × ν)) :
    List (κ × ν) :=
  ks.foldl (fun m k => if (dget m k).isSome then m else m ++ [(k, d)]) m

/-! ### Delta extraction -/

/-- The loop body of `_group_new_slices_by_pr`: look up the PR's head and
base slice sets, compute `new_slices = head − base`, and record the PR
only when that delta is non-empty.  (`removed_slices` and its warning are
logging only.) -/
def newSlicesStep (slices_in_head_by_pr slices_in_base_by_pr : List (PR × Finset String))
    (acc : List (PR × Finset String)) (pr : PR) : List (PR × Finset String) :=
  let slices_in_head := (dget slices_in_head_by_pr pr).getD ∅
  let slices_in_base := (dget slices_in_base_by_pr pr).getD ∅
  let new_slices := slices_in_head \ slices_in_base
  if new_slices ≠ ∅ then acc ++ [(pr, new_slices)] else acc

/-- `_group_new_slices_by_pr`: check that the head and base maps cover the
same PRs (else `ValueError`), then for each PR record
`head − base` when non-empty.  Iteration is over `sorted(prs)`, which only
affects log/output order, so we iterate the (deduplicated) key list. -/
def _group_new_slices_by_pr (slices_in_head_by_pr slices_in_base_by_pr : List (PR × Finset String)) :
    Except String (List (PR × Finset String)) :=
  if (slices_in_base_by_pr.map Prod.fst).toFinset ≠ (slices_in_head_by_pr.map Prod.fst).toFinset then
    .error "slices_in_head_by_pr and slices_in_base_by_pr must have the same keys."
  else
    .ok (((slices_in_head_by_pr.map Prod.fst).dedup).foldl
      (newSlicesStep slices_in_head_by_pr slices_in_base_by_pr) [])

/-! ### Comparison -/

/-- `Comparison`: a pair of PRs, one into a given release and one into a
future release, with their new-slice sets and the discontinued slices. -/
structure Comparison where
  pr : PR
  slices : Finset String
  pr_future : PR
  slices_future : Finset String
  discontinued_slices : Finset String
deriving DecidableEq

/-- `Comparison.__init__` followed by `__post_init__`: evaluating
`self.pr.ubuntu_release >= self.pr_future.ubuntu_release` resolves both
branches (left first, as Python does) and raises `ValueError` when the
first release is not strictly older. -/
def Comparison.make (tbl : List (String × String)) (pr : PR) (slices : Finset String)
    (pr_future : PR) ( slices_future : Finset String) (discontinued_slices : Finset String) :
    Except String Comparison :=
  match pr.ubuntu_release tbl with
  | .error e => .error e
  | .ok r =>
    match pr_future.ubuntu_release tbl with
    | .error e => .error e
    | .ok r_future =>
      if r.ge r_future then
        .error "pr_future must be into a future release compared to pr."
      else
        .ok ⟨pr, slices, pr_future, slices_future, discontinued_slices⟩

/-- `Comparison.missing_slices`: `slices - slices_future`; return the empty
set early when that is already empty; subtract `discontinued_slices` only
when that set is non-empty. -/
def Comparison.missing_slices (c : Comparison) : Finset String :=
  let missing := c.slices \ c.slices_future
  if missing = ∅ then ∅
  else if c.discontinued_slices ≠ ∅ then missing \ c.discontinued_slices
  else missing

/-- `Comparison.is_forward_ported`: no missing slices. -/
def Comparison.is_forward_ported (c : Comparison) : Bool :=
  decide (c.missing_slices = ∅)

/-- `Comparison.overlap`. -/
def Comparison.overlap (c : Comparison) : Finset String :=
  c.slices ∩ c.slices_future

/-! ### Comparison engine -/

/-- `_get_comparisons`: for every release with a non-empty set of strictly
later releases among the partition keys, compare every PR of that release
against every PR of every later release; a missing package inventory for a
future release degrades to the empty set.  The source collects the results
into a `frozenset`; we keep the list (claims below only inspect membership
and success). -/
def _get_comparisons (tbl : List (String × String))
    (prs_by_ubuntu_release : List (UbuntuRelease × List PR))
    (new_slices_by_pr : List (PR × Finset String))
    (packages_by_release : List (UbuntuRelease × Finset String)) :
    Except String (List Comparison) :=
  foldlE
    (fun acc entry =>
      let ubuntu_release := entry.1
      let future_releases :=
        (prs_by_ubuntu_release.map Prod.fst).filter (fun r => r.gt ubuntu_release)
      if future_releases.isEmpty then .ok acc
      else
        foldlE
          (fun acc pr =>
            let new_slices := (dget new_slices_by_pr pr).getD ∅
            foldlE
              (fun acc future_release =>
                let prs_into_future_release := (dget prs_by_ubuntu_release future_release).getD []
                if prs_into_future_release.isEmpty then .ok acc
                else
                  foldlE
                    (fun acc pr_future =>
                      let new_slices_in_future := (dget new_slices_by_pr pr_future).getD ∅
                      let discontinued_slices :=
                        new_slices \ (dget packages_by_release future_release).getD ∅
                      match Comparison.make tbl pr new_slices pr_future new_slices_in_future
                          discontinued_slices with
                      | .error e => .error e
                      | .ok c => .ok (acc ++ [c]))
                    acc prs_into_future_release)
              acc future_releases)
          acc entry.2)
    [] prs_by_ubuntu_release

/-- The last loop of `_get_grouped_comparisons`: give a PR's inner mapping a
key for every strictly later release of the partition, bound to the empty
set when absent. -/
def fillFutureReleases (prs_by_ubuntu_release : List (UbuntuRelease × List PR))
    (r : UbuntuRelease) (m : List (UbuntuRelease × List Comparison)) :
    List (UbuntuRelease × List Comparison) :=
  ensureKeys ((prs_by_ubuntu_release.map Prod.fst).filter (fun q => q.gt r)) [] m

/-- The body of the regrouping loop of `_get_grouped_comparisons`: file a
comparison under its `pr` and then under its future release, creating the
missing inner mappings (`if pr not in grouped_comparisons: ... = {}` and
likewise for the future release). -/
def regroupStep (tbl : List (String × String))
    (g : List (PR × List (UbuntuRelease × List Comparison))) (c : Comparison) :
    Except String (List (PR × List (UbuntuRelease × List Comparison))) :=
  match c.pr_future.ubuntu_release tbl with
  | .error e => .error e
  | .ok future_release =>
    let inner := (dget g c.pr).getD []
    let s := (dget inner future_release).getD []
    .ok (dset g c.pr (dset inner future_release (s ++ [c])))

/-- The loop of `_get_grouped_comparisons` that adds every PR of the
partition as a key (bound to an empty mapping) when it had no comparisons
at all. -/
def addAllPRs (prs_by_ubuntu_release : List (UbuntuRelease × List PR))
    (g : List (PR × List (UbuntuRelease × List Comparison))) :
    List (PR × List (UbuntuRelease × List Comparison)) :=
  prs_by_ubuntu_release.foldl (fun g entry => ensureKeys entry.2 [] g) g

/-- The body of the final loop of `_get_grouped_comparisons`: resolve the
PR's release (failure propagates) and complete its inner mapping with
every strictly later release of the partition. -/
def finalizeStep (tbl : List (String × String))
    (prs_by_ubuntu_release : List (UbuntuRelease × List PR))
    (acc : List (PR × List (UbuntuRelease × List Comparison)))
    (entry : PR × List (UbuntuRelease × List Comparison)) :
    Except String (List (PR × List (UbuntuRelease × List Comparison))) :=
  match entry.1.ubuntu_release tbl with
  | .error e => .error e
  | .ok r => .ok (acc ++ [(entry.1, fillFutureReleases prs_by_ubuntu_release r entry.2)])

/-- `_get_grouped_comparisons`: group the comparisons by `pr` then by the
future release, add every PR of the partition as a key, and finally give
every PR a key for each of its future releases. -/
def _get_grouped_comparisons (tbl : List (String × String))
    (prs_by_ubuntu_release : List (UbuntuRelease × List PR))
    (new_slices_by_pr : List (PR × Finset String))
    (packages_by_release : List (UbuntuRelease × Finset String)) :
    Except String (List (PR × List (UbuntuRelease × List Comparison))) :=
  match _get_comparisons tbl prs_by_ubuntu_release new_slices_by_pr packages_by_release with
  | .error e => .error e
  | .ok comparisons =>
    match foldlE (regroupStep tbl) [] comparisons with
    | .error e => .error e
    | .ok grouped =>
      foldlE (finalizeStep tbl prs_by_ubuntu_release) []
        (addAllPRs prs_by_ubuntu_release grouped)

/-! ### Partitioning and the verdict -/

/-- The body of the PR-filing loop of `_group_prs_by_ubuntu_release`:
resolve the PR's release (resolution failure propagates), skip the PR with
a warning when its release is not a key, else append it to its bucket. -/
def groupStep (tbl : List (String × String)) (m : List (UbuntuRelease × List PR)) (pr : PR) :
    Except String (List (UbuntuRelease × List PR)) :=
  match pr.ubuntu_release tbl with
  | .error e => .error e
  | .ok r =>
    match dget m r with
    | none => .ok m
    | some l => .ok (dset m r (l ++ [pr]))

/-- `_group_prs_by_ubuntu_release`: seed every known release with an empty
set, then file each PR under its resolved release, skipping (with a
warning) PRs whose resolved release is not a key.  Resolution failure
(`from_branch_name` raising) propagates.  The source iterates
`sorted(prs)`, which only affects log order, and closes with a loop making
sure every known release is a key (a no-op given the seeding). -/
def _group_prs_by_ubuntu_release (tbl : List (String × String)) (prs : List PR)
    (ubuntu_releases : List UbuntuRelease) :
    Except String (List (UbuntuRelease × List PR)) :=
  match foldlE (groupStep tbl) (ubuntu_releases.dedup.map (fun r => (r, []))) prs with
  | .error e => .error e
  | .ok m => .ok (ensureKeys ubuntu_releases [] m)

/-- `forward_porting_status`: vacuously true on an empty slice set,
otherwise every future release must have at least one comparison with no
missing slices. -/
def forward_porting_status (slices : Finset String)
    (comparisons_by_future_release : List (UbuntuRelease × List Comparison)) : Bool :=
  if slices = ∅ then true
  else
    comparisons_by_future_release.all (fun entry => entry.2.any (fun c => c.is_forward_ported))

/-- Modelled from the spec for the refinement claim about
`Comparison.missing_slices`: the unconditional set expression
`(slices − slices_future) − discontinued`. -/
def missing_slices_spec (c : Comparison) : Finset String :=
  (c.slices \ c.slices_future) \ c.discontinued_slices

/-! ### Concrete data used by the witnesses and counterexamples -/

/-- The version→codename table for the three releases of the spec's
concrete scenarios. -/
def tblStd : List (String × String) :=
  [("20.04", "Focal Fossa"), ("22.04", "Jammy Jellyfish"), ("24.04", "Noble Numbat")]

def commitFor (branch : String) : Commit :=
  ⟨branch, "chisel-releases", "canonical", "u", "s"⟩

def prAt (n : Nat) (branch : String) : PR :=
  ⟨n, "t", "u", commitFor "feature", commitFor branch, false, "u"⟩

def rFocal : UbuntuRelease := ⟨"20.04", "Focal Fossa"⟩

def rJammy : UbuntuRelease := ⟨"22.04", "Jammy Jellyfish"⟩

def rNoble : UbuntuRelease := ⟨"24.04", "Noble Numbat"⟩

def relsStd : List UbuntuRelease := [rFocal, rJammy, rNoble]

def pr1 : PR := prAt 1 "ubuntu-20.04"

def pr2 : PR := prAt 2 "ubuntu-22.04"

def pr3 : PR := prAt 3 "ubuntu-24.04"

/-- Scenario 3 of the spec: `foo` absent from the future inventories. -/
def pkgsDiscontinued : List (UbuntuRelease × Finset String) :=
  [(rFocal, {"foo", "bar"}), (rJammy, {"bar"}), (rNoble, {"bar"})]

/-- Scenarios 1 and 2 of the spec: `foo` present everywhere. -/
def pkgsAll : List (UbuntuRelease × Finset String) :=
  [(rFocal, {"foo", "bar"}), (rJammy, {"foo", "bar"}), (rNoble, {"foo", "bar"})]

def partitionS3 : List (UbuntuRelease × List PR) :=
  (_group_prs_by_ubuntu_release tblStd [pr1] relsStd).toOption.getD []

def nsS3 : List (PR × Finset String) :=
  (_group_new_slices_by_pr [(pr1, {"foo"})] [(pr1, ∅)]).toOption.getD []

def groupedS3 : List (PR × List (UbuntuRelease × List Comparison)) :=
  (_get_grouped_comparisons tblStd partitionS3 nsS3 pkgsDiscontinued).toOption.getD []

/-- Scenario 2 of the spec: PRs #2 and #3 port `foo`. -/
def partitionS2 : List (UbuntuRelease × List PR) :=
  (_group_prs_by_ubuntu_release tblStd [pr1, pr2, pr3] relsStd).toOption.getD []

def nsS2 : List (PR × Finset String) :=
  (_group_new_slices_by_pr [(pr1, {"foo"}), (pr2, {"foo"}), (pr3, {"foo"})]
    [(pr1, ∅), (pr2, ∅), (pr3, ∅)]).toOption.getD []

def groupedS2 : List (PR × List (UbuntuRelease × List Comparison)) :=
  (_get_grouped_comparisons tblStd partitionS2 nsS2 pkgsAll).toOption.getD []

/-- A PR whose base branch version is absent from the version→codename table. -/
def prBad : PR := prAt 9 "ubuntu-99.99"

/-- A table that also knows the no-longer-supported release 18.04. -/
def tblW : List (String × String) := ("18.04", "Bionic Beaver") :: tblStd

/-- A PR into 18.04, resolvable but outside the known-Release list. -/
def prOld : PR := prAt 4 "ubuntu-18.04"

/-- Two releases with distinct version strings but equal version tuples
(`int("04") = int("4")`). -/
def rDupA : UbuntuRelease := ⟨"22.04", "First"⟩

def rDupB : UbuntuRelease := ⟨"22.4", "Second"⟩

def tblDup : List (String × String) := [("22.04", "First"), ("22.4", "Second")]

def relsDup : List UbuntuRelease := [rDupA, rDupB]

def prD1 : PR := prAt 1 "ubuntu-22.04"

def prD2 : PR := prAt 2 "ubuntu-22.4"

def partitionDup : List (UbuntuRelease × List PR) :=
  (_group_prs_by_ubuntu_release tblDup [prD1, prD2] relsDup).toOption.getD []

/-- An inventory mapping with no entry for the future releases. -/
def pkgsPartial : List (UbuntuRelease × Finset String) := [(rFocal, {"foo", "bar"})]

/-- Head/base slice maps with identical keys: PR #1 adds `a`, PR #2 adds
nothing. -/
def headW : List (PR × Finset String) := [(pr1, {"a"}), (pr2, {"b"})]

def baseW : List (PR × Finset String) := [(pr1, ∅), (pr2, {"b"})]

end ForwardPortMissing

namespace ForwardPortMissing

/-! ### Sanity examples: the embedding on the spec's concrete scenarios -/

example : UbuntuRelease.version_tuple ⟨"22.04", "Jammy"⟩ = (22, 4) := by decide

example : UbuntuRelease.version_tuple ⟨"22.4", "X"⟩ = (22, 4) := by decide

example : UbuntuRelease.lt ⟨"20.04", "F"⟩ ⟨"22.04", "J"⟩ = true := by decide

example :
    UbuntuRelease.from_branch_name [("20.04", "Focal Fossa")] "ubuntu-20.04" =
      .ok ⟨"20.04", "Focal Fossa"⟩ := by decide

example :
    (UbuntuRelease.from_branch_name [("20.04", "Focal Fossa")] "ubuntu-99.99").isOk = false := by
  decide

example : partitionS3 = [(rFocal, [pr1]), (rJammy, []), (rNoble, [])] := by decide
example : nsS3 = [(pr1, {"foo"})] := by decide
example : groupedS3 = [(pr1, [(rJammy, []), (rNoble, [])])] := by decide

-- the spec expects `forward_ported(#1) = true` here (scenario 3); the code says false
example :
    forward_porting_status ((dget nsS3 pr1).getD ∅) ((dget groupedS3 pr1).getD []) = false := by
  decide

-- scenario 2: PRs #2 and #3 port `foo`; verdict true
example :
    forward_porting_status ((dget nsS2 pr1).getD ∅) ((dget groupedS2 pr1).getD []) = true := by
  decide

-- scenario 1: only PR #1, `foo` present in the future inventories; verdict false
example :
    forward_porting_status ((dget nsS3 pr1).getD ∅)
      ((dget ((_get_grouped_comparisons tblStd partitionS3 nsS3 pkgsAll).toOption.getD [])
        pr1).getD []) = false := by
  decide

/-! ### Association-list lemmas -/

theorem dget_mem {κ ν : Type} [DecidableEq κ] {l : List (κ × ν)} {k : κ} {v : ν}
    (h : dget l k = some v) : (k, v) ∈ l := by
  induction l with
  | nil => simp [dget] at h
  | cons p t ih =>
    by_cases hpk : p.1 = k
    · rw [dget, if_pos hpk] at h
      rcases p with ⟨p1, p2⟩
      change p1 = k at hpk
      change some p2 = some v at h
      subst hpk
      cases h
      exact List.mem_cons_self _ _
    · rw [dget, if_neg hpk] at h
      exact List.mem_cons_of_mem _ (ih h)

theorem dget_append {κ ν : Type} [DecidableEq κ] (l₁ l₂ : List (κ × ν)) (k : κ) :
    dget (l₁ ++ l₂) k =
      match dget l₁ k with
      | some v => some v
      | none => dget l₂ k := by
  induction l₁ with
  | nil => simp [dget]
  | cons p t ih => by_cases hpk : p.1 = k <;> simp [dget, hpk, ih]

theorem dget_append_left {κ ν : Type} [DecidableEq κ] {l₁ : List (κ × ν)} (l₂ : List (κ × ν))
    {k : κ} {v : ν} (h : dget l₁ k = some v) : dget (l₁ ++ l₂) k = some v := by
  rw [dget_append, h]

theorem dget_append_right {κ ν : Type} [DecidableEq κ] {l₁ : List (κ × ν)} (l₂ : List (κ × ν))
    {k : κ} (h : dget l₁ k = none) : dget (l₁ ++ l₂) k = dget l₂ k := by
  rw [dget_append, h]

theorem dget_dset_self {κ ν : Type} [DecidableEq κ] (l : List (κ × ν)) (k : κ) (v : ν) :
    dget (dset l k v) k = some v := by
  induction l with
  | nil => simp [dset, dget]
  | cons p t ih => by_cases hpk : p.1 = k <;> simp [dset, dget, hpk, ih]

theorem dget_dset_ne {κ ν : Type} [DecidableEq κ] (l : List (κ × ν)) {k k' : κ} (v : ν)
    (h : k' ≠ k) : dget (dset l k v) k' = dget l k' := by
  induction l with
  | nil => simp [dset, dget, Ne.symm h]
  | cons p t ih =>
    by_cases hpk : p.1 = k
    · simp [dset, dget, hpk, Ne.symm h]
    · by_cases hpk' : p.1 = k' <;> simp [dset, dget, hpk, hpk', ih, h]

theorem mem_dset {κ ν : Type} [DecidableEq κ] {l : List (κ × ν)} {k : κ} {v : ν} :
    ∀ p ∈ dset l k v, p ∈ l ∨ p = (k, v) := by
  induction l with
  | nil => intro p hp; simp [dset] at hp; right; exact hp
  | cons q t ih =>
    intro p hp
    by_cases hqk : q.1 = k
    · rw [dset, if_pos hqk] at hp
      rcases List.mem_cons.mp hp with h | h
      · right; exact h
      · left; exact List.mem_cons_of_mem _ h
    · rw [dset, if_neg hqk] at hp
      rcases List.mem_cons.mp hp with h | h
      · left; rw [h]; exact List.mem_cons_self _ _
      · rcases ih p h with h' | h'
        · left; exact List.mem_cons_of_mem _ h'
        · right; exact h'

theorem dget_isSome_dset {κ ν : Type} [DecidableEq κ] (l : List (κ × ν)) (k q : κ) (v : ν) :
    (dget (dset l k v) q).isSome = true ↔ (dget l q).isSome = true ∨ q = k := by
  by_cases hq : q = k
  · subst hq; simp [dget_dset_self]
  · rw [dget_dset_ne l v hq]; simp [hq]

/-! ### Fold lemmas -/

theorem foldlE_ind {α β : Type} {P : β → Prop} {f : β → α → Except String β} :
    ∀ {l : List α} {b : β}, (∀ b a, a ∈ l → P b → ∃ b', f b a = .ok b' ∧ P b') → P b →
      ∃ b', foldlE f b l = .ok b' ∧ P b'
  | [], b, _, hb => ⟨b, rfl, hb⟩
  | a :: l, b, hf, hb => by
    obtain ⟨b1, hb1, hPb1⟩ := hf b a (List.mem_cons_self a l) hb
    have := foldlE_ind (fun b' a' ha' => hf b' a' (List.mem_cons_of_mem _ ha')) hPb1
    simpa [foldlE, hb1] using this

theorem foldlE_pres {α β : Type} {P : β → Prop} {f : β → α → Except String β} :
    ∀ {l : List α} {b b' : β}, (∀ b a, a ∈ l → P b → ∀ b'', f b a = .ok b'' → P b'') →
      P b → foldlE f b l = .ok b' → P b'
  | [], b, b', _, hb, h => by
    rw [foldlE] at h
    cases h
    exact hb
  | a :: l, b, b', hf, hb, h => by
    rw [foldlE] at h
    rcases he : f b a with e | b1
    · rw [he] at h; cases h
    · rw [he] at h
      exact foldlE_pres (fun b'' a' ha' => hf b'' a' (List.mem_cons_of_mem _ ha'))
        (hf b a (List.mem_cons_self a l) hb b1 he) h

theorem foldl_pres {α β : Type} {P : β → Prop} {f : β → α → β} :
    ∀ {l : List α} {b : β}, (∀ b a, a ∈ l → P b → P (f b a)) → P b → P (l.foldl f b)
  | [], _, _, hb => hb
  | a :: l, b, hf, hb =>
    foldl_pres (l := l) (b := f b a)
      (fun b' a' ha' => hf b' a' (List.mem_cons_of_mem _ ha'))
      (hf b a (List.mem_cons_self a l) hb)

theorem exists_ok_of_isOk {α : Type} {e : Except String α} (h : e.isOk = true) :
    ∃ a, e = .ok a := by
  cases e with
  | error e => simp [Except.isOk, Except.toBool] at h
  | ok a => exact ⟨a, rfl⟩

theorem foldlE_cons_ok {α β : Type} {f : β → α → Except String β} {b b1 : β} {a : α}
    (l : List α) (h : f b a = .ok b1) : foldlE f b (a :: l) = foldlE f b1 l := by
  rw [foldlE, h]

theorem foldlE_cons_error {α β : Type} {f : β → α → Except String β} {b : β} {a : α}
    {e : String} (l : List α) (h : f b a = .error e) : foldlE f b (a :: l) = .error e := by
  rw [foldlE, h]

/-! ### ensureKeys lemmas -/

theorem ensureKeys_dget_some {κ ν : Type} [DecidableEq κ] {ks : List κ} {d : ν}
    {m : List (κ × ν)} {k : κ} {v : ν} (h : dget m k = some v) :
    dget (ensureKeys ks d m) k = some v := by
  unfold ensureKeys
  refine foldl_pres (P := fun m' => dget m' k = some v) ?_ h
  intro m' q _ hm'
  by_cases hq : (dget m' q).isSome
  · simp [hq, hm']
  · simp [hq, dget_append_left _ hm']

theorem ensureKeys_isSome_mono {κ ν : Type} [DecidableEq κ] {ks : List κ} {d : ν}
    {m : List (κ × ν)} {k : κ} (h : (dget m k).isSome = true) :
    (dget (ensureKeys ks d m) k).isSome = true := by
  rcases Option.isSome_iff_exists.mp h with ⟨v, hv⟩
  rw [ensureKeys_dget_some hv]
  rfl

theorem ensureKeys_isSome {κ ν : Type} [DecidableEq κ] {ks : List κ} (d : ν) :
    ∀ {m : List (κ × ν)} {k : κ}, k ∈ ks → (dget (ensureKeys ks d m) k).isSome = true := by
  induction ks with
  | nil => intro m k h; cases h
  | cons q t ih =>
    intro m k h
    rcases List.mem_cons.mp h with hq | ht
    · subst hq
      show (dget (ensureKeys (k :: t) d m) k).isSome = true
      unfold ensureKeys
      rw [List.foldl_cons]
      by_cases hm : (dget m k).isSome
      · rw [if_pos hm]
        exact ensureKeys_isSome_mono hm
      · rw [if_neg hm]
        refine ensureKeys_isSome_mono ?_
        rw [dget_append_right _ (Option.not_isSome_iff_eq_none.mp hm)]
        simp [dget]
    · unfold ensureKeys
      rw [List.foldl_cons]
      exact ih ht

theorem ensureKeys_dget_cases {κ ν : Type} [DecidableEq κ] {ks : List κ} {d : ν} :
    ∀ {m : List (κ × ν)} {k : κ} {v : ν}, dget (ensureKeys ks d m) k = some v →
      dget m k = some v ∨ (v = d ∧ dget m k = none) := by
  induction ks with
  | nil => intro m k v h; left; exact h
  | cons q t ih =>
    intro m k v h
    unfold ensureKeys at h
    rw [List.foldl_cons] at h
    by_cases hm : (dget m q).isSome
    · rw [if_pos hm] at h
      exact ih h
    · rw [if_neg hm] at h
      rcases ih h with h' | ⟨hv, h'⟩
      · rw [dget_append] at h'
        rcases hmk : dget m k with _ | w
        · rw [hmk] at h'
          by_cases hqk : q = k
          · simp [dget, hqk] at h'
            right; exact ⟨h'.symm, rfl⟩
          · simp [dget, hqk] at h'
        · rw [hmk] at h'
          left; exact h'
      · rw [dget_append] at h'
        rcases hmk : dget m k with _ | w
        · right; exact ⟨hv, rfl⟩
        · rw [hmk] at h'; cases h'

theorem ensureKeys_entries {κ ν : Type} [DecidableEq κ] {ks : List κ} {d : ν} :
    ∀ {m : List (κ × ν)}, ∀ e ∈ ensureKeys ks d m, e ∈ m ∨ (e.1 ∈ ks ∧ e.2 = d) := by
  induction ks with
  | nil => intro m e he; left; exact he
  | cons q t ih =>
    intro m e he
    unfold ensureKeys at he
    rw [List.foldl_cons] at he
    by_cases hm : (dget m q).isSome
    · rw [if_pos hm] at he
      rcases ih e he with h | ⟨h1, h2⟩
      · left; exact h
      · right; exact ⟨List.mem_cons_of_mem _ h1, h2⟩
    · rw [if_neg hm] at he
      rcases ih e he with h | ⟨h1, h2⟩
      · rcases List.mem_append.mp h with h' | h'
        · left; exact h'
        · right
          rcases List.mem_singleton.mp h' with rfl
          exact ⟨List.mem_cons_self _ _, rfl⟩
      · right; exact ⟨List.mem_cons_of_mem _ h1, h2⟩

theorem dget_map_const {κ ν : Type} [DecidableEq κ] (v0 : ν) :
    ∀ (ks : List κ) (q : κ),
      (dget (ks.map (fun r => (r, v0))) q).isSome = true ↔ q ∈ ks := by
  intro ks q
  induction ks with
  | nil => simp [dget]
  | cons a t ih =>
    by_cases hq : a = q
    · subst hq; simp [dget]
    · simp only [List.map_cons, dget, if_neg hq]
      rw [ih]
      simp [Ne.symm hq]

/-! ### The PR-filing fold of `_group_prs_by_ubuntu_release` -/

theorem groupStep_eq (tbl : List (String × String)) (m : List (UbuntuRelease × List PR))
    (pr : PR) (r : UbuntuRelease) (hres : pr.ubuntu_release tbl = .ok r) :
    groupStep tbl m pr =
      match dget m r with
      | none => .ok m
      | some l => .ok (dset m r (l ++ [pr])) := by
  unfold groupStep
  rw [hres]

theorem groupStep_error (tbl : List (String × String)) (m : List (UbuntuRelease × List PR))
    (pr : PR) (e : String) (hres : pr.ubuntu_release tbl = .error e) :
    groupStep tbl m pr = .error e := by
  unfold groupStep
  rw [hres]

theorem groupStep_skip (tbl : List (String × String)) (m : List (UbuntuRelease × List PR))
    (pr : PR) (r : UbuntuRelease) (hres : pr.ubuntu_release tbl = .ok r)
    (hdg : dget m r = none) : groupStep tbl m pr = .ok m := by
  rw [groupStep_eq tbl m pr r hres, hdg]

theorem groupStep_file (tbl : List (String × String)) (m : List (UbuntuRelease × List PR))
    (pr : PR) (r : UbuntuRelease) (l : List PR) (hres : pr.ubuntu_release tbl = .ok r)
    (hdg : dget m r = some l) : groupStep tbl m pr = .ok (dset m r (l ++ [pr])) := by
  rw [groupStep_eq tbl m pr r hres, hdg]

theorem group_fold_spec (tbl : List (String × String)) :
    ∀ (prs : List PR) (m : List (UbuntuRelease × List PR)),
      (∀ p ∈ prs, (p.ubuntu_release tbl).isOk = true) →
      ∃ m', foldlE (groupStep tbl) m prs = .ok m' ∧
        (∀ q, (dget m' q).isSome = (dget m q).isSome) ∧
        (∀ R l, dget m R = some l → ∃ l', dget m' R = some l' ∧ ∀ x ∈ l, x ∈ l') ∧
        (∀ R l', dget m' R = some l' → ∀ x ∈ l',
          (∃ l, dget m R = some l ∧ x ∈ l) ∨ (x ∈ prs ∧ x.ubuntu_release tbl = .ok R)) ∧
        (∀ p ∈ prs, ∀ R, p.ubuntu_release tbl = .ok R → (dget m R).isSome = true →
          ∃ l', dget m' R = some l' ∧ p ∈ l') := by
  intro prs
  induction prs with
  | nil =>
    intro m _
    refine ⟨m, rfl, fun q => rfl, ?_, ?_, ?_⟩
    · intro R l h
      exact ⟨l, h, fun x hx => hx⟩
    · intro R l' h x hx
      exact Or.inl ⟨l', h, hx⟩
    · intro p hp
      cases hp
  | cons p rest ih =>
    intro m hok
    obtain ⟨Rp, hRp⟩ := exists_ok_of_isOk (hok p (List.mem_cons_self p rest))
    rcases hmp : dget m Rp with _ | l
    · have hstep : groupStep tbl m p = .ok m := groupStep_skip tbl m p Rp hRp hmp
      obtain ⟨m', hfold, hb, hc, hd, he⟩ := ih m (fun q hq => hok q (List.mem_cons_of_mem _ hq))
      refine ⟨m', by rw [foldlE_cons_ok rest hstep]; exact hfold, hb, hc, ?_, ?_⟩
      · intro R l' h x hx
        rcases hd R l' h x hx with h' | ⟨h1, h2⟩
        · exact Or.inl h'
        · exact Or.inr ⟨List.mem_cons_of_mem _ h1, h2⟩
      · intro q hq R hres hsome
        rcases List.mem_cons.mp hq with hq0 | hq'
        · subst hq0
          rw [hres] at hRp
          have hReq : R = Rp := Except.ok.inj hRp
          rw [← hReq] at hmp
          rw [hmp] at hsome
          cases hsome
        · exact he q hq' R hres hsome
    · have hstep : groupStep tbl m p = .ok (dset m Rp (l ++ [p])) :=
        groupStep_file tbl m p Rp l hRp hmp
      obtain ⟨m', hfold, hb, hc, hd, he⟩ :=
        ih (dset m Rp (l ++ [p])) (fun q hq => hok q (List.mem_cons_of_mem _ hq))
      have hkey : ∀ q, (dget (dset m Rp (l ++ [p])) q).isSome = (dget m q).isSome := by
        intro q
        by_cases hq : q = Rp
        · rw [hq, dget_dset_self, hmp]
          rfl
        · rw [dget_dset_ne _ _ hq]
      refine ⟨m', by rw [foldlE_cons_ok rest hstep]; exact hfold, ?_, ?_, ?_, ?_⟩
      · intro q
        rw [hb q, hkey q]
      · intro R l0 h0
        by_cases hR : R = Rp
        · subst hR
          rw [hmp] at h0
          cases h0
          obtain ⟨l', hl', hsub⟩ := hc R (l ++ [p]) (dget_dset_self _ _ _)
          exact ⟨l', hl', fun x hx => hsub x (List.mem_append_left _ hx)⟩
        · obtain ⟨l', hl', hsub⟩ := hc R l0 (by rw [dget_dset_ne _ _ hR]; exact h0)
          exact ⟨l', hl', hsub⟩
      · intro R l' hl' x hx
        rcases hd R l' hl' x hx with ⟨l1, hm1, hx1⟩ | ⟨h1, h2⟩
        · by_cases hR : R = Rp
          · subst hR
            rw [dget_dset_self] at hm1
            cases hm1
            rcases List.mem_append.mp hx1 with hxl | hxp
            · exact Or.inl ⟨l, hmp, hxl⟩
            · have hxp' := List.mem_singleton.mp hxp
              subst hxp'
              exact Or.inr ⟨List.mem_cons_self _ _, hRp⟩
          · rw [dget_dset_ne _ _ hR] at hm1
            exact Or.inl ⟨l1, hm1, hx1⟩
        · exact Or.inr ⟨List.mem_cons_of_mem _ h1, h2⟩
      · intro q hq R hres hsome
        rcases List.mem_cons.mp hq with hq0 | hq'
        · subst hq0
          rw [hres] at hRp
          have hReq : R = Rp := Except.ok.inj hRp
          subst hReq
          obtain ⟨l', hl', hsub⟩ := hc R (l ++ [q]) (dget_dset_self _ _ _)
          exact ⟨l', hl', hsub _ (List.mem_append_right _ (List.mem_singleton_self _))⟩
        · exact he q hq' R hres (by rw [hkey R]; exact hsome)

theorem group_prs_destruct {tbl : List (String × String)} {prs : List PR}
    {rels : List UbuntuRelease} {m : List (UbuntuRelease × List PR)}
    (h : _group_prs_by_ubuntu_release tbl prs rels = .ok m) :
    ∃ m1, foldlE (groupStep tbl) (rels.dedup.map (fun r => (r, []))) prs = .ok m1 ∧
      m = ensureKeys rels [] m1 := by
  unfold _group_prs_by_ubuntu_release at h
  rcases hf : foldlE (groupStep tbl) (rels.dedup.map (fun r => (r, []))) prs with e | m1
  · rw [hf] at h
    cases h
  · rw [hf] at h
    cases h
    exact ⟨m1, rfl, rfl⟩

/-- Well-formedness of a produced partition: every bucket's PRs resolve to
exactly the bucket's key, and every key is a known release. -/
theorem group_prs_wf {tbl : List (String × String)} {prs : List PR}
    {rels : List UbuntuRelease} {m : List (UbuntuRelease × List PR)}
    (h : _group_prs_by_ubuntu_release tbl prs rels = .ok m) :
    ∀ e ∈ m, e.1 ∈ rels ∧ ∀ p ∈ e.2, p.ubuntu_release tbl = .ok e.1 := by
  obtain ⟨m1, hf, rfl⟩ := group_prs_destruct h
  have hinit : ∀ e ∈ (List.dedup rels).map (fun r => (r, ([] : List PR))),
      e.1 ∈ rels ∧ ∀ p ∈ e.2, p.ubuntu_release tbl = .ok e.1 := by
    intro e he
    obtain ⟨r, hr, rfl⟩ := List.mem_map.mp he
    exact ⟨List.mem_dedup.mp hr, fun p hp => absurd hp (List.not_mem_nil p)⟩
  have hm1 : ∀ e ∈ m1, e.1 ∈ rels ∧ ∀ p ∈ e.2, p.ubuntu_release tbl = .ok e.1 := by
    refine foldlE_pres
      (P := fun mm => ∀ e ∈ mm, e.1 ∈ rels ∧ ∀ p ∈ e.2, p.ubuntu_release tbl = .ok e.1)
      ?_ hinit hf
    intro m' pr _ hP m'' hstep
    rcases hres : pr.ubuntu_release tbl with e | r
    · rw [groupStep_error tbl m' pr e hres] at hstep
      cases hstep
    · rcases hdg : dget m' r with _ | l
      · rw [groupStep_skip tbl m' pr r hres hdg] at hstep
        cases hstep
        exact hP
      · rw [groupStep_file tbl m' pr r l hres hdg] at hstep
        cases hstep
        intro e he
        rcases mem_dset e he with h' | he'
        · exact hP e h'
        · subst he'
          have hrl := hP (r, l) (dget_mem hdg)
          refine ⟨hrl.1, ?_⟩
          intro p hp
          rcases List.mem_append.mp hp with hpl | hpp
          · exact hrl.2 p hpl
          · have hpp' := List.mem_singleton.mp hpp
            subst hpp'
            exact hres
  intro e he
  rcases ensureKeys_entries e he with h' | ⟨h1, h2⟩
  · exact hm1 e h'
  · refine ⟨h1, ?_⟩
    rw [h2]
    intro p hp
    cases hp

/-! ### Release-ordering helpers -/

theorem tuple_lt_total (x y : Nat × Nat)
    (h1 : (decide (y.1 < x.1) || (decide (y.1 = x.1) && decide (y.2 < x.2))) = false)
    (h2 : y ≠ x) :
    (decide (x.1 < y.1) || (decide (x.1 = y.1) && decide (x.2 < y.2))) = true := by
  rcases x with ⟨x1, x2⟩
  rcases y with ⟨y1, y2⟩
  simp only [ne_eq, Prod.mk.injEq, not_and] at h2
  simp only [Bool.or_eq_false_iff, Bool.and_eq_false_iff, decide_eq_false_iff_not,
    Bool.or_eq_true, Bool.and_eq_true, decide_eq_true_eq] at h1 ⊢
  omega

theorem rel_lt_of_gt {a b : UbuntuRelease} (hgt : b.gt a = true)
    (hne : b.version_tuple ≠ a.version_tuple) : a.lt b = true := by
  unfold UbuntuRelease.gt at hgt
  rw [Bool.not_eq_true', Bool.or_eq_false_iff] at hgt
  unfold UbuntuRelease.lt at hgt ⊢
  exact tuple_lt_total _ _ hgt.1 hne

theorem rel_ge_eq_false {a b : UbuntuRelease} (hlt : a.lt b = true) : a.ge b = false := by
  unfold UbuntuRelease.ge
  rw [hlt]
  rfl

/-- A successful `Comparison` construction, with the fields as given. -/
theorem make_ok_of_lt {tbl : List (String × String)} {pr pr_future : PR}
    {r rf : UbuntuRelease} (s sf d : Finset String)
    (hr : pr.ubuntu_release tbl = .ok r) (hrf : pr_future.ubuntu_release tbl = .ok rf)
    (hlt : r.lt rf = true) :
    Comparison.make tbl pr s pr_future sf d = .ok ⟨pr, s, pr_future, sf, d⟩ := by
  unfold Comparison.make
  rw [hr, hrf]
  show (if r.ge rf = true then
      (Except.error "pr_future must be into a future release compared to pr." :
        Except String Comparison)
    else .ok ⟨pr, s, pr_future, sf, d⟩) = .ok ⟨pr, s, pr_future, sf, d⟩
  rw [rel_ge_eq_false hlt]
  rfl

/-! ### The comparison engine -/

/-- The comparisons built by `_get_comparisons` on a well-formed partition:
the engine raises nothing, and each emitted Comparison carries the slice
sets looked up for its two PRs and the discontinued set computed against
the future release's package inventory (the empty set when that release
has no inventory entry). -/
theorem get_comparisons_spec (tbl : List (String × String))
    (partition : List (UbuntuRelease × List PR)) (ns : List (PR × Finset String))
    (pkgs : List (UbuntuRelease × Finset String))
    (hwf : ∀ e ∈ partition, ∀ p ∈ e.2, p.ubuntu_release tbl = .ok e.1)
    (hinj : ∀ e1 ∈ partition, ∀ e2 ∈ partition,
      e1.1.version_tuple = e2.1.version_tuple → e1.1 = e2.1) :
    ∃ cs, _get_comparisons tbl partition ns pkgs = .ok cs ∧
      ∀ c ∈ cs, ∃ fr, c.pr_future.ubuntu_release tbl = .ok fr ∧
        c.slices = (dget ns c.pr).getD ∅ ∧
        c.slices_future = (dget ns c.pr_future).getD ∅ ∧
        c.discontinued_slices = c.slices \ (dget pkgs fr).getD ∅ := by
  unfold _get_comparisons
  refine foldlE_ind
    (P := fun (acc : List Comparison) =>
      ∀ c ∈ acc, ∃ fr, c.pr_future.ubuntu_release tbl = .ok fr ∧
        c.slices = (dget ns c.pr).getD ∅ ∧
        c.slices_future = (dget ns c.pr_future).getD ∅ ∧
        c.discontinued_slices = c.slices \ (dget pkgs fr).getD ∅)
    ?_ (fun c hc => absurd hc (List.not_mem_nil c))
  intro acc entry hentry hP
  dsimp only
  by_cases hfe :
      (List.filter (fun r => r.gt entry.1) (partition.map Prod.fst)).isEmpty = true
  · rw [if_pos hfe]
    exact ⟨acc, rfl, hP⟩
  · rw [if_neg hfe]
    refine foldlE_ind ?_ hP
    intro acc1 pr hpr hP1
    dsimp only
    refine foldlE_ind ?_ hP1
    intro acc2 fr hfr hP2
    dsimp only
    have hfr' := List.mem_filter.mp hfr
    have hgt : fr.gt entry.1 = true := by
      have := hfr'.2
      simpa using this
    by_cases hne : (dget partition fr |>.getD []).isEmpty = true
    · rw [if_pos hne]
      exact ⟨acc2, rfl, hP2⟩
    · rw [if_neg hne]
      rcases hdg : dget partition fr with _ | lfr
      · rw [hdg] at hne
        exact absurd rfl hne
      · refine foldlE_ind ?_ hP2
        intro acc3 prf hprf hP3
        dsimp only
        rw [Option.getD_some] at hprf
        have hmemfr : (fr, lfr) ∈ partition := dget_mem hdg
        have hr : pr.ubuntu_release tbl = .ok entry.1 := hwf entry hentry pr hpr
        have hrf : prf.ubuntu_release tbl = .ok fr := hwf (fr, lfr) hmemfr prf hprf
        have hvtne : fr.version_tuple ≠ entry.1.version_tuple := by
          intro hvt
          have heq : fr = entry.1 := hinj (fr, lfr) hmemfr entry hentry hvt
          unfold UbuntuRelease.gt at hgt
          rw [heq] at hgt
          simp at hgt
        have hlt : entry.1.lt fr = true := rel_lt_of_gt hgt hvtne
        rw [make_ok_of_lt _ _ _ hr hrf hlt]
        refine ⟨_, rfl, ?_⟩
        intro c hc
        rcases List.mem_append.mp hc with hc' | hc'
        · exact hP3 c hc'
        · have hc'' := List.mem_singleton.mp hc'
          subst hc''
          exact ⟨fr, hrf, rfl, rfl, rfl⟩

/-- C4 counterexample: `_group_prs_by_ubuntu_release` can produce a
partition in which every PR is filed under exactly its target Release and
on which `_get_comparisons` nevertheless reaches the `ValueError` branch
of `Comparison.__post_init__`: two distinct releases with equal version
tuples (version strings `22.04` and `22.4`) are each `>` the other under
the `total_ordering`-derived comparison, yet neither is `<` the other, so
the strict-ordering check fires and the function raises. -/
theorem get_comparisons_contract_reachable :
    _group_prs_by_ubuntu_release tblDup [prD1, prD2] relsDup = .ok partitionDup ∧
    (∀ e ∈ partitionDup, ∀ p ∈ e.2, p.ubuntu_release tblDup = .ok e.1) ∧
    (_get_comparisons tblDup partitionDup [] []).isOk = false := by
  decide

/-- C4 (amended): on a partition produced by `_group_prs_by_ubuntu_release`
whose distinct release keys have distinct version tuples (true of every
real release table), `_get_comparisons` never reaches the `ValueError`
branch of `Comparison.__post_init__`: every Comparison it constructs
satisfies the strict ordering `pr.ubuntu_release < pr_future.ubuntu_release`
and the function raises no exception. -/
theorem get_comparisons_no_contract_violation (tbl : List (String × String))
    (prs : List PR) (rels : List UbuntuRelease)
    (partition : List (UbuntuRelease × List PR)) (ns : List (PR × Finset String))
    (pkgs : List (UbuntuRelease × Finset String))
    (h : _group_prs_by_ubuntu_release tbl prs rels = .ok partition)
    (hinj : ∀ e1 ∈ partition, ∀ e2 ∈ partition,
      e1.1.version_tuple = e2.1.version_tuple → e1.1 = e2.1) :
    (_get_comparisons tbl partition ns pkgs).isOk = true := by
  have hwf : ∀ e ∈ partition, ∀ p ∈ e.2, p.ubuntu_release tbl = .ok e.1 :=
    fun e he => (group_prs_wf h e he).2
  obtain ⟨cs, hcs, _⟩ := get_comparisons_spec tbl partition ns pkgs hwf hinj
  rw [hcs]
  rfl

theorem get_comparisons_no_contract_violation_witness :
    (_get_comparisons tblStd partitionS2 nsS2 pkgsAll).isOk = true :=
  get_comparisons_no_contract_violation tblStd [pr1, pr2, pr3] relsStd partitionS2 nsS2
    pkgsAll (by decide) (by decide)

/-- C9: a future release queried by the comparison engine but absent from
the package inventory mapping is treated as the empty inventory rather
than an error: the engine completes without raising, and every Comparison
whose future release has no inventory entry gets `discontinued_slices`
equal to the older Change's full new-content set. -/
theorem missing_inventory_degrades_to_empty (tbl : List (String × String))
    (prs : List PR) (rels : List UbuntuRelease)
    (partition : List (UbuntuRelease × List PR)) (ns : List (PR × Finset String))
    (pkgs : List (UbuntuRelease × Finset String))
    (h : _group_prs_by_ubuntu_release tbl prs rels = .ok partition)
    (hinj : ∀ e1 ∈ partition, ∀ e2 ∈ partition,
      e1.1.version_tuple = e2.1.version_tuple → e1.1 = e2.1) :
    ∃ cs, _get_comparisons tbl partition ns pkgs = .ok cs ∧
      ∀ c ∈ cs, ∀ R', c.pr_future.ubuntu_release tbl = .ok R' → dget pkgs R' = none →
        c.discontinued_slices = c.slices ∧ c.slices = (dget ns c.pr).getD ∅ := by
  have hwf : ∀ e ∈ partition, ∀ p ∈ e.2, p.ubuntu_release tbl = .ok e.1 :=
    fun e he => (group_prs_wf h e he).2
  obtain ⟨cs, hcs, hQ⟩ := get_comparisons_spec tbl partition ns pkgs hwf hinj
  refine ⟨cs, hcs, ?_⟩
  intro c hc R' hres hnone
  obtain ⟨fr, hfr, hsl, _, hdisc⟩ := hQ c hc
  have heq : R' = fr := by
    rw [hres] at hfr
    exact Except.ok.inj hfr
  subst heq
  rw [hnone] at hdisc
  simp only [Option.getD_none, Finset.sdiff_empty] at hdisc
  exact ⟨hdisc, hsl⟩

theorem missing_inventory_degrades_to_empty_witness :
    ∃ cs, _get_comparisons tblStd partitionS2 nsS2 pkgsPartial = .ok cs ∧
      ∀ c ∈ cs, ∀ R', c.pr_future.ubuntu_release tblStd = .ok R' →
        dget pkgsPartial R' = none →
        c.discontinued_slices = c.slices ∧ c.slices = (dget nsS2 c.pr).getD ∅ :=
  missing_inventory_degrades_to_empty tblStd [pr1, pr2, pr3] relsStd partitionS2 nsS2
    pkgsPartial (by decide) (by decide)

/-! ### Delta extraction -/

theorem dget_append_single_ne {κ ν : Type} [DecidableEq κ] (l : List (κ × ν)) {q k : κ}
    (v : ν) (h : q ≠ k) : dget (l ++ [(q, v)]) k = dget l k := by
  rw [dget_append]
  rcases hd : dget l k with _ | w
  · simp [dget, h]
  · rfl

theorem dget_append_single_self {κ ν : Type} [DecidableEq κ] {l : List (κ × ν)} (k : κ)
    (v : ν) (h : dget l k = none) : dget (l ++ [(k, v)]) k = some v := by
  rw [dget_append_right _ h]
  simp [dget]

theorem newSlices_fold_notmem (head base : List (PR × Finset String)) :
    ∀ (prs : List PR) (acc : List (PR × Finset String)) (pr : PR), pr ∉ prs →
      dget (prs.foldl (newSlicesStep head base) acc) pr = dget acc pr := by
  intro prs
  induction prs with
  | nil =>
    intro acc pr _
    rfl
  | cons q rest ih =>
    intro acc pr hpr
    rw [List.foldl_cons]
    have hne : pr ≠ q := fun hh => hpr (hh ▸ List.mem_cons_self q rest)
    have hstep : dget (newSlicesStep head base acc q) pr = dget acc pr := by
      simp only [newSlicesStep]
      by_cases hd : (dget head q).getD ∅ \ (dget base q).getD ∅ ≠ ∅
      · rw [if_pos hd]
        exact dget_append_single_ne _ _ (Ne.symm hne)
      · rw [if_neg hd]
    rw [ih _ pr (fun hh => hpr (List.mem_cons_of_mem _ hh)), hstep]

theorem newSlices_fold_mem_pos (head base : List (PR × Finset String)) :
    ∀ (prs : List PR) (acc : List (PR × Finset String)) (pr : PR), prs.Nodup → pr ∈ prs →
      dget acc pr = none → (dget head pr).getD ∅ \ (dget base pr).getD ∅ ≠ ∅ →
      dget (prs.foldl (newSlicesStep head base) acc) pr =
        some ((dget head pr).getD ∅ \ (dget base pr).getD ∅) := by
  intro prs
  induction prs with
  | nil =>
    intro acc pr _ hpr
    cases hpr
  | cons q rest ih =>
    intro acc pr hnd hpr hacc hdelta
    rw [List.foldl_cons]
    rcases List.mem_cons.mp hpr with heq | hmem
    · subst heq
      have hstep : dget (newSlicesStep head base acc pr) pr =
          some ((dget head pr).getD ∅ \ (dget base pr).getD ∅) := by
        simp only [newSlicesStep]
        rw [if_pos hdelta]
        exact dget_append_single_self _ _ hacc
      rw [newSlices_fold_notmem head base rest _ pr (List.nodup_cons.mp hnd).1, hstep]
    · have hne : pr ≠ q := by
        intro hh
        subst hh
        exact (List.nodup_cons.mp hnd).1 hmem
      have hstep : dget (newSlicesStep head base acc q) pr = none := by
        simp only [newSlicesStep]
        by_cases hd : (dget head q).getD ∅ \ (dget base q).getD ∅ ≠ ∅
        · rw [if_pos hd]
          rw [dget_append_single_ne _ _ (Ne.symm hne)]
          exact hacc
        · rw [if_neg hd]
          exact hacc
      exact ih _ pr (List.nodup_cons.mp hnd).2 hmem hstep hdelta

theorem newSlices_fold_mem_neg (head base : List (PR × Finset String)) :
    ∀ (prs : List PR) (acc : List (PR × Finset String)) (pr : PR), prs.Nodup →
      dget acc pr = none → (dget head pr).getD ∅ \ (dget base pr).getD ∅ = ∅ →
      dget (prs.foldl (newSlicesStep head base) acc) pr = none := by
  intro prs
  induction prs with
  | nil =>
    intro acc pr _ hacc _
    exact hacc
  | cons q rest ih =>
    intro acc pr hnd hacc hdelta
    rw [List.foldl_cons]
    have hstep : dget (newSlicesStep head base acc q) pr = none := by
      simp only [newSlicesStep]
      by_cases hd : (dget head q).getD ∅ \ (dget base q).getD ∅ ≠ ∅
      · rw [if_pos hd]
        by_cases hne : q = pr
        · subst hne
          exact absurd hdelta hd
        · rw [dget_append_single_ne _ _ hne]
          exact hacc
      · rw [if_neg hd]
        exact hacc
    exact ih _ pr (List.nodup_cons.mp hnd).2 hstep hdelta

/-- C10: on head/base maps with identical key sets, the mapping returned
by `_group_new_slices_by_pr` has a key for a Change iff its delta
(head set minus base set) is non-empty, and every value it holds is
non-empty — a Change whose head set is contained in its base set is
absent entirely, never present with an empty value. -/
theorem group_new_slices_keys (head base m : List (PR × Finset String))
    (h : _group_new_slices_by_pr head base = .ok m) :
    (∀ pr : PR, (dget m pr).isSome = true ↔
      (pr ∈ head.map Prod.fst ∧ (dget head pr).getD ∅ \ (dget base pr).getD ∅ ≠ ∅)) ∧
    (∀ e ∈ m, e.2 ≠ ∅) := by
  unfold _group_new_slices_by_pr at h
  by_cases hk : (base.map Prod.fst).toFinset ≠ (head.map Prod.fst).toFinset
  · rw [if_pos hk] at h
    cases h
  · rw [if_neg hk] at h
    cases h
    constructor
    · intro pr
      by_cases hmem : pr ∈ head.map Prod.fst
      · have hmem' : pr ∈ (head.map Prod.fst).dedup := List.mem_dedup.mpr hmem
        by_cases hdelta : (dget head pr).getD ∅ \ (dget base pr).getD ∅ ≠ ∅
        · rw [newSlices_fold_mem_pos head base _ [] pr (List.nodup_dedup _) hmem' rfl hdelta]
          simp [hmem, hdelta]
        · rw [newSlices_fold_mem_neg head base _ [] pr (List.nodup_dedup _) rfl
            (Classical.byContradiction (fun hh => hdelta hh))]
          simp [hdelta]
      · rw [newSlices_fold_notmem head base _ [] pr
          (fun hh => hmem (List.mem_dedup.mp hh))]
        simp [dget, hmem]
    · refine foldl_pres
        (P := fun (acc : List (PR × Finset String)) => ∀ e ∈ acc, e.2 ≠ ∅) ?_ ?_
      · intro acc pr _ hP e he
        simp only [newSlicesStep] at he
        by_cases hd : (dget head pr).getD ∅ \ (dget base pr).getD ∅ ≠ ∅
        · rw [if_pos hd] at he
          rcases List.mem_append.mp he with he' | he'
          · exact hP e he'
          · have he'' := List.mem_singleton.mp he'
            subst he''
            exact hd
        · rw [if_neg hd] at he
          exact hP e he
      · intro e he
        cases he

/-! ### The aggregator -/

theorem ensureKeys_dget_none {κ ν : Type} [DecidableEq κ] {ks : List κ} {d : ν}
    {m : List (κ × ν)} {k : κ} (h : dget (ensureKeys ks d m) k = none) : dget m k = none := by
  rcases hm : dget m k with _ | v
  · rfl
  · rw [ensureKeys_dget_some hm] at h
    cases h

theorem addAllPRs_dget_some {partition : List (UbuntuRelease × List PR)}
    {g : List (PR × List (UbuntuRelease × List Comparison))} {k : PR}
    {v : List (UbuntuRelease × List Comparison)} (h : dget g k = some v) :
    dget (addAllPRs partition g) k = some v := by
  unfold addAllPRs
  refine foldl_pres
    (P := fun (gg : List (PR × List (UbuntuRelease × List Comparison))) => dget gg k = some v)
    ?_ h
  intro gg entry _ hgg
  exact ensureKeys_dget_some hgg

theorem addAllPRs_isSome_mono {partition : List (UbuntuRelease × List PR)}
    {g : List (PR × List (UbuntuRelease × List Comparison))} {k : PR}
    (h : (dget g k).isSome = true) : (dget (addAllPRs partition g) k).isSome = true := by
  rcases Option.isSome_iff_exists.mp h with ⟨v, hv⟩
  rw [addAllPRs_dget_some hv]
  rfl

theorem addAllPRs_isSome {partition : List (UbuntuRelease × List PR)} :
    ∀ {g : List (PR × List (UbuntuRelease × List Comparison))}
      {entry : UbuntuRelease × List PR}, entry ∈ partition →
      ∀ {pr : PR}, pr ∈ entry.2 → (dget (addAllPRs partition g) pr).isSome = true := by
  induction partition with
  | nil =>
    intro g entry he
    cases he
  | cons ent rest ih =>
    intro g entry he pr hpr
    unfold addAllPRs
    rw [List.foldl_cons]
    show (dget (addAllPRs rest (ensureKeys ent.2 [] g)) pr).isSome = true
    rcases List.mem_cons.mp he with heq | hmem
    · subst heq
      exact addAllPRs_isSome_mono (ensureKeys_isSome _ hpr)
    · exact ih hmem hpr

theorem addAllPRs_dget_cases {partition : List (UbuntuRelease × List PR)} :
    ∀ {g : List (PR × List (UbuntuRelease × List Comparison))} {k : PR}
      {v : List (UbuntuRelease × List Comparison)},
      dget (addAllPRs partition g) k = some v →
      dget g k = some v ∨ (v = [] ∧ dget g k = none) := by
  induction partition with
  | nil =>
    intro g k v h
    left
    exact h
  | cons ent rest ih =>
    intro g k v h
    unfold addAllPRs at h
    rw [List.foldl_cons] at h
    have h' : dget (addAllPRs rest (ensureKeys ent.2 [] g)) k = some v := h
    rcases ih h' with h'' | ⟨hv, h''⟩
    · rcases ensureKeys_dget_cases h'' with h3 | ⟨hv3, h3⟩
      · left
        exact h3
      · right
        exact ⟨hv3, h3⟩
    · right
      exact ⟨hv, ensureKeys_dget_none h''⟩

theorem regroupStep_error (tbl : List (String × String))
    (g : List (PR × List (UbuntuRelease × List Comparison))) (c : Comparison) (e0 : String)
    (hres : c.pr_future.ubuntu_release tbl = .error e0) :
    regroupStep tbl g c = .error e0 := by
  unfold regroupStep
  rw [hres]

theorem regroupStep_ok (tbl : List (String × String))
    (g : List (PR × List (UbuntuRelease × List Comparison))) (c : Comparison)
    (fr : UbuntuRelease) (hres : c.pr_future.ubuntu_release tbl = .ok fr) :
    regroupStep tbl g c =
      .ok (dset g c.pr (dset ((dget g c.pr).getD []) fr
        ((dget ((dget g c.pr).getD []) fr).getD [] ++ [c]))) := by
  unfold regroupStep
  rw [hres]

/-- Every comparison filed by the regrouping loop sits under its own `pr`
and its future release, and comes from the comparison list. -/
theorem regroup_inv (tbl : List (String × String)) {cs : List Comparison}
    {g1 : List (PR × List (UbuntuRelease × List Comparison))}
    (h : foldlE (regroupStep tbl) [] cs = .ok g1) :
    ∀ e ∈ g1, ∀ e' ∈ e.2, ∀ c ∈ e'.2,
      c ∈ cs ∧ c.pr = e.1 ∧ c.pr_future.ubuntu_release tbl = .ok e'.1 := by
  refine foldlE_pres
    (P := fun (g : List (PR × List (UbuntuRelease × List Comparison))) =>
      ∀ e ∈ g, ∀ e' ∈ e.2, ∀ c ∈ e'.2,
        c ∈ cs ∧ c.pr = e.1 ∧ c.pr_future.ubuntu_release tbl = .ok e'.1)
    ?_ (fun e he => absurd he (List.not_mem_nil e)) h
  intro g c hc hP g' hstep
  rcases hres : c.pr_future.ubuntu_release tbl with e0 | fr
  · rw [regroupStep_error tbl g c e0 hres] at hstep
    cases hstep
  · rw [regroupStep_ok tbl g c fr hres] at hstep
    cases hstep
    have hinner : ∀ e' ∈ (dget g c.pr).getD [], ∀ x ∈ e'.2,
        x ∈ cs ∧ x.pr = c.pr ∧ x.pr_future.ubuntu_release tbl = .ok e'.1 := by
      rcases hdg : dget g c.pr with _ | inner0
      · intro e' he'
        exact absurd he' (List.not_mem_nil e')
      · intro e' he' x hx
        exact hP (c.pr, inner0) (dget_mem hdg) e' he' x hx
    intro e he e' he' x hx
    rcases mem_dset e he with heg | hee
    · exact hP e heg e' he' x hx
    · subst hee
      rcases mem_dset e' he' with hei | hee'
      · exact hinner e' hei x hx
      · subst hee'
        rcases List.mem_append.mp hx with hxs | hxc
        · rcases hdgi : dget ((dget g c.pr).getD []) fr with _ | s0
          · rw [hdgi] at hxs
            exact absurd hxs (List.not_mem_nil x)
          · rw [hdgi] at hxs
            exact hinner (fr, s0) (dget_mem hdgi) x hxs
        · have hxc' := List.mem_singleton.mp hxc
          subst hxc'
          exact ⟨hc, rfl, hres⟩

theorem finalizeStep_error (tbl : List (String × String))
    (pbr : List (UbuntuRelease × List PR))
    (acc : List (PR × List (UbuntuRelease × List Comparison)))
    (entry : PR × List (UbuntuRelease × List Comparison)) (e0 : String)
    (hres : entry.1.ubuntu_release tbl = .error e0) :
    finalizeStep tbl pbr acc entry = .error e0 := by
  unfold finalizeStep
  rw [hres]

theorem finalizeStep_ok (tbl : List (String × String))
    (pbr : List (UbuntuRelease × List PR))
    (acc : List (PR × List (UbuntuRelease × List Comparison)))
    (entry : PR × List (UbuntuRelease × List Comparison)) (r : UbuntuRelease)
    (hres : entry.1.ubuntu_release tbl = .ok r) :
    finalizeStep tbl pbr acc entry =
      .ok (acc ++ [(entry.1, fillFutureReleases pbr r entry.2)]) := by
  unfold finalizeStep
  rw [hres]

theorem finalize_shape (tbl : List (String × String))
    (pbr : List (UbuntuRelease × List PR)) :
    ∀ (g2 acc gf : List (PR × List (UbuntuRelease × List Comparison))),
      foldlE (finalizeStep tbl pbr) acc g2 = .ok gf →
      ∃ tail, gf = acc ++ tail ∧
        ∀ k v, dget g2 k = some v →
          ∃ r, k.ubuntu_release tbl = .ok r ∧
            dget tail k = some (fillFutureReleases pbr r v) := by
  intro g2
  induction g2 with
  | nil =>
    intro acc gf h
    rw [foldlE] at h
    cases h
    exact ⟨[], (List.append_nil acc).symm, fun k v hkv => absurd hkv (by simp [dget])⟩
  | cons ent g2' ih =>
    intro acc gf h
    rcases hres : ent.1.ubuntu_release tbl with e0 | r
    · rw [foldlE_cons_error _ (finalizeStep_error tbl pbr acc ent e0 hres)] at h
      cases h
    · rw [foldlE_cons_ok _ (finalizeStep_ok tbl pbr acc ent r hres)] at h
      obtain ⟨tail', htail', hchar⟩ := ih _ _ h
      refine ⟨(ent.1, fillFutureReleases pbr r ent.2) :: tail', ?_, ?_⟩
      · rw [htail', List.append_assoc]
        rfl
      · intro k v hkv
        by_cases hk : ent.1 = k
        · rw [dget, if_pos hk] at hkv
          cases hkv
          refine ⟨r, hk ▸ hres, ?_⟩
          rw [dget, if_pos hk]
        · rw [dget, if_neg hk] at hkv
          obtain ⟨r', hr', htail⟩ := hchar k v hkv
          refine ⟨r', hr', ?_⟩
          rw [dget, if_neg hk]
          exact htail

/-- C5: whenever `_get_grouped_comparisons` returns a mapping, every
Change `pr` of the partition appears as a key, and under it every
partition Release strictly later than `pr`'s target Release appears as a
key — bound to the empty set when the comparison engine produced no
Comparison for `(pr, R')`, never left missing. -/
theorem grouped_comparisons_total_keys (tbl : List (String × String))
    (partition : List (UbuntuRelease × List PR)) (ns : List (PR × Finset String))
    (pkgs : List (UbuntuRelease × Finset String))
    (g : List (PR × List (UbuntuRelease × List Comparison))) (cs : List Comparison)
    (pr : PR) (entry : UbuntuRelease × List PR) (r : UbuntuRelease)
    (hg : _get_grouped_comparisons tbl partition ns pkgs = .ok g)
    (hcs : _get_comparisons tbl partition ns pkgs = .ok cs)
    (hentry : entry ∈ partition) (hpr : pr ∈ entry.2)
    (hr : pr.ubuntu_release tbl = .ok r) :
    ∃ m, dget g pr = some m ∧
      ∀ R' ∈ partition.map Prod.fst, R'.gt r = true →
        ∃ s, dget m R' = some s ∧
          ((∀ c ∈ cs, ¬(c.pr = pr ∧ c.pr_future.ubuntu_release tbl = .ok R')) → s = []) := by
  unfold _get_grouped_comparisons at hg
  rw [hcs] at hg
  have hg2 : (match foldlE (regroupStep tbl) [] cs with
      | .error e => (.error e : Except String (List (PR × List (UbuntuRelease × List Comparison))))
      | .ok grouped =>
        foldlE (finalizeStep tbl partition) [] (addAllPRs partition grouped)) = .ok g := hg
  clear hg
  rcases hph1 : foldlE (regroupStep tbl) [] cs with e0 | g1
  · rw [hph1] at hg2
    cases hg2
  · rw [hph1] at hg2
    have hg : foldlE (finalizeStep tbl partition) [] (addAllPRs partition g1) = .ok g := hg2
    have hsome2 : (dget (addAllPRs partition g1) pr).isSome = true :=
      addAllPRs_isSome hentry hpr
    obtain ⟨inner2, hinner2⟩ := Option.isSome_iff_exists.mp hsome2
    obtain ⟨tail, htail, hchar⟩ := finalize_shape tbl partition _ [] g hg
    obtain ⟨r0, hr0, hdgetg⟩ := hchar pr inner2 hinner2
    have hrr : r0 = r := by
      rw [hr0] at hr
      exact Except.ok.inj hr
    subst hrr
    refine ⟨fillFutureReleases partition r0 inner2, ?_, ?_⟩
    · rw [htail, List.nil_append]
      exact hdgetg
    · intro R' hR'mem hgt
      have hR'filter : R' ∈ (partition.map Prod.fst).filter (fun q => q.gt r0) :=
        List.mem_filter.mpr ⟨hR'mem, hgt⟩
      have hsomeR' : (dget (fillFutureReleases partition r0 inner2) R').isSome = true := by
        unfold fillFutureReleases
        exact ensureKeys_isSome _ hR'filter
      obtain ⟨s, hs⟩ := Option.isSome_iff_exists.mp hsomeR'
      refine ⟨s, hs, ?_⟩
      intro hnone
      unfold fillFutureReleases at hs
      rcases ensureKeys_dget_cases hs with hsi | ⟨hsnil, _⟩
      · rcases addAllPRs_dget_cases hinner2 with hg1 | ⟨hinil, _⟩
        · have hmem1 : (pr, inner2) ∈ g1 := dget_mem hg1
          have hmem2 : (R', s) ∈ inner2 := dget_mem hsi
          refine List.eq_nil_iff_forall_not_mem.mpr ?_
          intro x hx
          obtain ⟨hxcs, hxpr, hxres⟩ := regroup_inv tbl hph1 (pr, inner2) hmem1 (R', s) hmem2 x hx
          exact hnone x hxcs ⟨hxpr, hxres⟩
        · rw [hinil] at hsi
          simp [dget] at hsi
      · exact hsnil

theorem grouped_comparisons_total_keys_witness :
    ∃ m, dget groupedS3 pr1 = some m ∧
      ∀ R' ∈ partitionS3.map Prod.fst, R'.gt rFocal = true →
        ∃ s, dget m R' = some s ∧
          ((∀ c ∈ ([] : List Comparison),
            ¬(c.pr = pr1 ∧ c.pr_future.ubuntu_release tblStd = .ok R')) → s = []) :=
  grouped_comparisons_total_keys tblStd partitionS3 nsS3 pkgsDiscontinued groupedS3 []
    pr1 (rFocal, [pr1]) rFocal (by decide) (by decide) (by decide) (by decide) (by decide)

/-- C10 witness inputs are evaluated in the proof below. -/
theorem group_new_slices_keys_witness :
    (∀ pr : PR, (dget [(pr1, ({"a"} : Finset String))] pr).isSome = true ↔
      (pr ∈ headW.map Prod.fst ∧ (dget headW pr).getD ∅ \ (dget baseW pr).getD ∅ ≠ ∅)) ∧
    (∀ e ∈ [(pr1, ({"a"} : Finset String))], e.2 ≠ ∅) :=
  group_new_slices_keys headW baseW [(pr1, {"a"})] (by decide)

/-! ### The missing-slices computation -/

theorem Comparison.missing_slices_sdiff (c : Comparison) :
    c.missing_slices = (c.slices \ c.slices_future) \ c.discontinued_slices := by
  unfold Comparison.missing_slices
  by_cases h1 : c.slices \ c.slices_future = ∅
  · simp [h1]
  · by_cases h2 : c.discontinued_slices = ∅
    · simp [h1, h2]
    · simp [h1, h2]

/-- C3: `Comparison.missing_slices`, with its early return on an empty
difference and its guard that subtracts `discontinued_slices` only when
that set is non-empty, computes exactly the unconditional set expression
`(slices − slices_future) − discontinued_slices`. -/
theorem missing_slices_eq_spec (c : Comparison) :
    c.missing_slices = missing_slices_spec c :=
  Comparison.missing_slices_sdiff c

/-- C6: for a fixed slice set and discontinued set, `missing_slices` is
antitone in `slices_future`: enlarging the future slice set can only
shrink (or preserve) the missing set, never grow it. -/
theorem missing_slices_antitone_in_future (p pf : PR) (s d A B : Finset String)
    (hAB : A ⊆ B) :
    (Comparison.mk p s pf B d).missing_slices ⊆ (Comparison.mk p s pf A d).missing_slices := by
  rw [Comparison.missing_slices_sdiff, Comparison.missing_slices_sdiff]
  exact Finset.sdiff_subset_sdiff
    (Finset.sdiff_subset_sdiff (Finset.Subset.refl _) hAB) (Finset.Subset.refl _)

theorem missing_slices_antitone_in_future_witness :
    ({"a"} : Finset String) ⊆ {"a", "b"} ∧
    (Comparison.mk pr1 {"a", "b", "c"} pr2 {"a", "b"} ∅).missing_slices ⊆
      (Comparison.mk pr1 {"a", "b", "c"} pr2 {"a"} ∅).missing_slices :=
  ⟨by decide,
    missing_slices_antitone_in_future pr1 pr2 {"a", "b", "c"} ∅ {"a"} {"a", "b"} (by decide)⟩

/-- C7: a Change with an empty new-content set is vacuously forward-ported:
`forward_porting_status` returns `true` on the empty slice set for every
mapping of comparisons by future release. -/
theorem forward_porting_status_empty_slices
    (comparisons_by_future_release : List (UbuntuRelease × List Comparison)) :
    forward_porting_status ∅ comparisons_by_future_release = true := by
  unfold forward_porting_status
  simp

/-- C8: constructing a `Comparison` whose first PR targets a release
greater than or equal to the second PR's release raises `ValueError`
(never silently swapping the pair), and construction with a strictly
smaller target release succeeds with the fields exactly as given. -/
theorem comparison_make_ordering_contract (tbl : List (String × String))
    (pr pr_future : PR) (s sf d : Finset String) (r rf : UbuntuRelease)
    (hr : pr.ubuntu_release tbl = .ok r) (hrf : pr_future.ubuntu_release tbl = .ok rf) :
    (r.ge rf = true →
      Comparison.make tbl pr s pr_future sf d =
        .error "pr_future must be into a future release compared to pr.") ∧
    (r.lt rf = true →
      Comparison.make tbl pr s pr_future sf d = .ok ⟨pr, s, pr_future, sf, d⟩) := by
  unfold Comparison.make
  rw [hr, hrf]
  constructor
  · intro h
    simp [h]
  · intro h
    have hge : r.ge rf = false := by
      unfold UbuntuRelease.ge
      rw [h]
      rfl
    simp [hge]

/-- C1: spec scenario 3 — Change #1 targets 20.04 with new content
`foo`, no other Changes exist, and `foo` is absent from the 22.04 and
24.04 package inventories.  The spec expects `forward_ported(#1) = true`
via the discontinuation exemption, but the code produces `false`: with no
Change targeting a future release there are zero Comparisons for it, the
empty comparison set fails `any`, and the exemption never gets a
Comparison to act through. -/
theorem discontinued_zero_comparisons_not_ported :
    (dget nsS3 pr1).getD ∅ = {"foo"} ∧
    "foo" ∉ (dget pkgsDiscontinued rJammy).getD ∅ ∧
    "foo" ∉ (dget pkgsDiscontinued rNoble).getD ∅ ∧
    _get_grouped_comparisons tblStd partitionS3 nsS3 pkgsDiscontinued = .ok groupedS3 ∧
    dget groupedS3 pr1 = some [(rJammy, []), (rNoble, [])] ∧
    forward_porting_status ((dget nsS3 pr1).getD ∅) ((dget groupedS3 pr1).getD []) = false := by
  decide

/-- C2 counterexample: a Change whose base branch version (`99.99`) is
absent from the version→codename table does not resolve to a known
Release; `_group_prs_by_ubuntu_release` then aborts with the propagated
`ValueError` from `from_branch_name` instead of returning a partition. -/
theorem group_prs_unknown_version_raises :
    (prBad.ubuntu_release tblStd).isOk = false ∧
    (_group_prs_by_ubuntu_release tblStd [prBad] relsStd).isOk = false := by
  decide

/-- C2 (amended): when every Change's branch resolves through the
version→codename table, `_group_prs_by_ubuntu_release` returns the
partition; a Change that resolves to a Release outside the known-Release
list is excluded from every bucket (skipped with a warning), while a
Change resolving to a listed Release is filed under exactly that Release.
A branch whose version is absent from the table instead aborts the
grouping with an exception (see the counterexample). -/
theorem group_prs_skips_unknown_release (tbl : List (String × String)) (prs : List PR)
    (rels : List UbuntuRelease)
    (hok : ∀ p ∈ prs, (p.ubuntu_release tbl).isOk = true) :
    ∃ m, _group_prs_by_ubuntu_release tbl prs rels = .ok m ∧
      (∀ p ∈ prs, ∀ R, p.ubuntu_release tbl = .ok R → R ∉ rels →
        ∀ e ∈ m, p ∉ e.2) ∧
      (∀ p ∈ prs, ∀ R, p.ubuntu_release tbl = .ok R → R ∈ rels →
        ∃ l, dget m R = some l ∧ p ∈ l) := by
  obtain ⟨m1, hf, _, _, _, he⟩ :=
    group_fold_spec tbl prs ((List.dedup rels).map (fun r => (r, []))) hok
  have hres : _group_prs_by_ubuntu_release tbl prs rels = .ok (ensureKeys rels [] m1) := by
    unfold _group_prs_by_ubuntu_release
    rw [hf]
  refine ⟨ensureKeys rels [] m1, hres, ?_, ?_⟩
  · intro p _ R hpR hR e he' hpe
    have hwf := group_prs_wf hres e he'
    have hkey := hwf.2 p hpe
    rw [hpR] at hkey
    refine hR ?_
    rw [Except.ok.inj hkey]
    exact hwf.1
  · intro p hp R hpR hR
    have hsome : (dget ((List.dedup rels).map (fun r => (r, ([] : List PR)))) R).isSome = true :=
      (dget_map_const _ _ _).mpr (List.mem_dedup.mpr hR)
    obtain ⟨l', hl', hpl'⟩ := he p hp R hpR hsome
    exact ⟨l', ensureKeys_dget_some hl', hpl'⟩

theorem group_prs_skips_unknown_release_witness :
    ∃ m, _group_prs_by_ubuntu_release tblW [pr1, prOld] relsStd = .ok m ∧
      (∀ p ∈ [pr1, prOld], ∀ R, p.ubuntu_release tblW = .ok R → R ∉ relsStd →
        ∀ e ∈ m, p ∉ e.2) ∧
      (∀ p ∈ [pr1, prOld], ∀ R, p.ubuntu_release tblW = .ok R → R ∈ relsStd →
        ∃ l, dget m R = some l ∧ p ∈ l) :=
  group_prs_skips_unknown_release tblW [pr1, prOld] relsStd (by decide)

theorem comparison_make_ordering_contract_witness :
    pr2.ubuntu_release tblStd = .ok rJammy ∧ pr1.ubuntu_release tblStd = .ok rFocal ∧
    ((rJammy.ge rFocal = true →
      Comparison.make tblStd pr2 {"x"} pr1 ∅ ∅ =
        .error "pr_future must be into a future release compared to pr.") ∧
    (rJammy.lt rFocal = true →
      Comparison.make tblStd pr2 {"x"} pr1 ∅ ∅ = .ok ⟨pr2, {"x"}, pr1, ∅, ∅⟩)) :=
  ⟨by decide, by decide,
    comparison_make_ordering_contract tblStd pr2 pr1 {"x"} ∅ ∅ rJammy rFocal
      (by decide) (by decide)⟩

end ForwardPortMissing
